import Mathlib

/-!
Verification of the markdown chunker and query tool of the
`shadow-memory` repository (scripts/index-skills.py and
scripts/query-skills.py).

Strings are embedded as `List Char`; Python's `str.split("\n")`,
`str.strip()`, `"\n".join`, and the header regex
`^(#{1,4})\s+(.+)$` are modelled character by character (for ASCII
whitespace, which covers all inputs appearing in the spec).
-/

namespace ShadowMemory

/-- The ASCII characters matched by Python's `\s` and stripped by
`str.strip()`: space, tab, newline, carriage return, vertical tab, form
feed. -/
def pyIsSpace (c : Char) : Bool :=
  c == ' ' || c == '\t' || c == '\n' || c == '\r' || c == '\x0b' || c == '\x0c'

/-- Python `content.split("\n")`: the list of lines, preserving empty
lines; splitting the empty string yields `[[]]`. -/
def splitLines : List Char → List (List Char)
  | [] => [[]]
  | c :: cs =>
    if c = '\n' then [] :: splitLines cs
    else
      match splitLines cs with
      | [] => [[c]]
      | l :: ls => (c :: l) :: ls

/-- Python `"\n".join(lines)`. -/
def joinNL : List (List Char) → List Char
  | [] => []
  | [l] => l
  | l :: ls => l ++ '\n' :: joinNL ls

/-- Python `" > ".join(parts)`. -/
def joinSep : List (List Char) → List Char
  | [] => []
  | [l] => l
  | l :: ls => l ++ ' ' :: '>' :: ' ' :: joinSep ls

/-- Python `s.strip()`: remove leading and trailing whitespace. -/
def strip (s : List Char) : List Char :=
  ((s.dropWhile pyIsSpace).reverse.dropWhile pyIsSpace).reverse

/-- `re.match(r"^(#{1,4})\s+(.+)$", line)`: returns the header level
(number of leading `#`, 1 to 4) and the title (`group(2)`).  The regex
matches exactly when the line starts with one to four `#`, the next
character is whitespace, and at least two characters follow the `#`s
(greedy `\s+` backtracks one step when the rest of the line is all
whitespace, leaving a single whitespace character as the title). -/
def headerLevel (line : List Char) : Nat :=
  (line.takeWhile (fun c => c == '#')).length

/-- `group(2)` of the header regex: the rest of the line after the
maximal whitespace run following the `#`s, except that when the whole
rest is whitespace the greedy `\s+` backtracks one character. -/
def headerTitle (rest : List Char) : List Char :=
  if (rest.takeWhile pyIsSpace).length < rest.length
  then rest.drop (rest.takeWhile pyIsSpace).length
  else rest.drop ((rest.takeWhile pyIsSpace).length - 1)

def headerMatch (line : List Char) : Option (Nat × List Char) :=
  if 1 ≤ headerLevel line ∧ headerLevel line ≤ 4 then
    match line.drop (headerLevel line) with
    | [] => none
    | [_] => none
    | c :: c2 :: cs =>
      if pyIsSpace c then some (headerLevel line, headerTitle (c :: c2 :: cs))
      else none
  else none

/-- One chunk record `{text, header, source}` produced by
`chunk_markdown`. -/
structure Chunk where
  text : List Char
  header : List Char
  source : List Char
deriving DecidableEq, Repr

/-- The loop state of `chunk_markdown`: the emitted chunks, the buffer
of lines of the chunk being built (`current_chunk`), the header path to
attach to it (`current_header`), and the stack of open headers
(`header_stack`, head = top of stack). -/
structure ChunkState where
  chunks : List Chunk
  currentChunk : List (List Char)
  currentHeader : List Char
  headerStack : List (Nat × List Char)
deriving DecidableEq, Repr

/-- `while header_stack and header_stack[-1][0] >= level: header_stack.pop()`
(stack head = top). -/
def popStack (level : Nat) : List (Nat × List Char) → List (Nat × List Char)
  | [] => []
  | p :: rest => if level ≤ p.1 then popStack level rest else p :: rest

/-- `" > ".join([h[1] for h in header_stack])`: titles from the bottom of
the stack (outermost header) to the top (innermost). -/
def joinPath (stack : List (Nat × List Char)) : List Char :=
  joinSep (stack.reverse.map Prod.snd)

/-- Finalizing the current buffer: if it is non-empty, join it with
newlines, strip, and append a chunk record when the result is truthy and
longer than 50 characters. -/
def finalizeChunk (fn : List Char) (st : ChunkState) : List Chunk :=
  if st.currentChunk.isEmpty then st.chunks
  else if !(strip (joinNL st.currentChunk)).isEmpty
      && 50 < (strip (joinNL st.currentChunk)).length then
    st.chunks ++ [⟨strip (joinNL st.currentChunk), st.currentHeader, fn⟩]
  else st.chunks

/-- The body of `chunk_markdown`'s `for line in lines` loop. -/
def chunkStep (fn : List Char) (st : ChunkState) (line : List Char) : ChunkState :=
  match headerMatch line with
  | some (level, title) =>
    let chunks := finalizeChunk fn st
    let stack := (level, title) :: popStack level st.headerStack
    { chunks := chunks
      currentChunk := [line]
      currentHeader := joinPath stack
      headerStack := stack }
  | none =>
    { st with currentChunk := st.currentChunk ++ [line] }

/-- The initial state of `chunk_markdown`: no chunks, empty buffer,
`current_header = filename`, empty stack. -/
def initState (fn : List Char) : ChunkState :=
  ⟨[], [], fn, []⟩

/-- `chunk_markdown(content, filename)` from scripts/index-skills.py. -/
def chunk_markdown (content fn : List Char) : List Chunk :=
  finalizeChunk fn ((splitLines content).foldl (chunkStep fn) (initState fn))

/-- The partition of the line list into buffer segments: a new segment
starts at every header line, so each segment after the first begins with
a header line and contains no further header line.  `chunk_markdown`
finalizes exactly these segments. -/
def segsAux (buf : List (List Char)) : List (List Char) → List (List (List Char))
  | [] => [buf]
  | l :: ls =>
    if (headerMatch l).isSome then buf :: segsAux [l] ls
    else segsAux (buf ++ [l]) ls

/-- The segments of a document's line list. -/
def segs (ls : List (List Char)) : List (List (List Char)) :=
  segsAux [] ls

/-- Well-formed header stack: levels are strictly increasing from the
bottom of the stack to the top (the head of the list is the top, so
levels decrease head-to-tail), each between 1 and 4. -/
def stackLevelsOK (s : List (Nat × List Char)) : Prop :=
  List.Chain' (fun a b => b.1 < a.1) s ∧ ∀ p ∈ s, 1 ≤ p.1 ∧ p.1 ≤ 4

/-- A well-formed header path: either the filename default or a
`" > "`-join of at most four titles. -/
def headerPathOK (fn h : List Char) : Prop :=
  h = fn ∨ ∃ ts : List (List Char), ts ≠ [] ∧ ts.length ≤ 4 ∧ h = joinSep ts

/-- Loop invariant of `chunk_markdown`: well-formed stack, well-formed
current header path, and well-formed header on every emitted chunk. -/
def ChunkInv (fn : List Char) (st : ChunkState) : Prop :=
  stackLevelsOK st.headerStack ∧ headerPathOK fn st.currentHeader
    ∧ ∀ c ∈ st.chunks, headerPathOK fn c.header

/-- The chunk-accumulation loop of `main()` in scripts/index-skills.py:
`all_chunks.extend(chunk_markdown(content, md_file.name))` over the
files, given here as (name, content) pairs. -/
def collectChunks (files : List (List Char × List Char)) : List Chunk :=
  files.foldl (fun acc fc => acc ++ chunk_markdown fc.2 fc.1) []

/-- The identifier assigned to the i-th chunk. -/
def chunkId (i : Nat) : String := "chunk_" ++ toString i

/-- The observable outcome of `main()` after the chunking loop: the
messages it prints and the ids passed to `collection.add` (`none` when
`add` is never called). -/
structure IndexRun where
  printed : List String
  insertedIds : Option (List String)
deriving DecidableEq, Repr

/-- `main()` of scripts/index-skills.py after the chunking loop: with no
chunks it prints "No chunks found!" and returns before any insertion;
otherwise it passes ids chunk_0, chunk_1, ... to `collection.add` and
prints the summary line. -/
def mainIndex (files : List (List Char × List Char)) : IndexRun :=
  let allChunks := collectChunks files
  if allChunks.isEmpty then
    { printed := ["No chunks found!"], insertedIds := none }
  else
    { printed := ["\nIndexed " ++ toString allChunks.length
        ++ " chunks into 'bug-fix-skills' collection"]
      insertedIds := some ((List.range allChunks.length).map chunkId) }

/-- `relevance = 1 - (distance / 2) if distance else 1.0` from
scripts/query-skills.py, over exact rationals (every distance the spec
mentions is exactly representable as a Python float, and halving and
subtracting from 1 are exact there). -/
def relevance (distance : ℚ) : ℚ :=
  if distance ≠ 0 then 1 - distance / 2 else 1

/-- The distance paired with one result: when the store reports no
distances the code substitutes a zero distance for every result
(`[0] * len(results["documents"][0])`). -/
def reportedDistance (d : Option ℚ) : ℚ :=
  d.getD 0

/-- Example document: a level-1 header, a 52-character body line, a
level-3 header, and another 52-character body line. -/
def exLevel13 : List Char :=
  "# A\n".data ++ List.replicate 52 'b' ++ "\n### C\n".data ++ List.replicate 52 'd'

/-- The spec's header-nesting example document. -/
def exNesting : List Char :=
  "# A\n## B\ntext\n## C\nmore".data

/-- The header-nesting example with both bodies padded beyond 50
characters. -/
def exNestingLong : List Char :=
  "# A\n## B\ntext".data ++ List.replicate 48 't'
    ++ "\n## C\nmore".data ++ List.replicate 48 'e'

/-- Example document: a 61-character line followed by a trailing
newline. -/
def exTrailingNewline : List Char :=
  List.replicate 61 'a' ++ ['\n']

/-- Example document with headers at levels 1, 2, 3, 4 and a long
body. -/
def exDeep : List Char :=
  "# A\n## B\n### C\n#### D\n".data ++ List.replicate 52 'x'

theorem splitLines_ne_nil (s : List Char) : splitLines s ≠ [] := by
  cases s with
  | nil => simp [splitLines]
  | cons c cs =>
    simp only [splitLines]
    split
    · simp
    · split <;> simp

theorem joinNL_cons_of_ne_nil (l : List Char) (ls : List (List Char)) (h : ls ≠ []) :
    joinNL (l :: ls) = l ++ '\n' :: joinNL ls := by
  cases ls with
  | nil => exact absurd rfl h
  | cons a as => rfl

theorem joinNL_cons_head (c : Char) (l : List Char) (ls : List (List Char)) :
    joinNL ((c :: l) :: ls) = c :: joinNL (l :: ls) := by
  cases ls with
  | nil => rfl
  | cons a as => rfl

/-- Joining the split lines with newlines reconstructs the document. -/
theorem joinNL_splitLines (s : List Char) : joinNL (splitLines s) = s := by
  induction s with
  | nil => rfl
  | cons c cs ih =>
    by_cases h : c = '\n'
    · subst h
      rw [show splitLines ('\n' :: cs) = [] :: splitLines cs from by simp [splitLines]]
      rw [joinNL_cons_of_ne_nil _ _ (splitLines_ne_nil cs)]
      simp [ih]
    · obtain ⟨l, ls, hE⟩ := List.exists_cons_of_ne_nil (splitLines_ne_nil cs)
      rw [show splitLines (c :: cs) = (c :: l) :: ls from by simp [splitLines, h, hE]]
      rw [hE] at ih
      rw [joinNL_cons_head, ih]

/-- The segments concatenate back to the whole line list: they cover the
document in order with no overlap. -/
theorem segsAux_join (ls : List (List Char)) : ∀ buf : List (List Char),
    (segsAux buf ls).flatten = buf ++ ls := by
  induction ls with
  | nil => intro buf; simp [segsAux]
  | cons l ls ih =>
    intro buf
    by_cases h : (headerMatch l).isSome
    · simp [segsAux, h, ih]
    · simp [segsAux, h, ih]

theorem segs_join (ls : List (List Char)) : (segs ls).flatten = ls := by
  simp [segs, segsAux_join]

/-- Finalizing the buffer appends its stripped joined text exactly when
that text is non-empty and longer than 50 characters. -/
theorem finalizeChunk_map_text (fn : List Char) (st : ChunkState) :
    (finalizeChunk fn st).map (fun c => c.text)
      = st.chunks.map (fun c => c.text)
        ++ [strip (joinNL st.currentChunk)].filter (fun t => !t.isEmpty && 50 < t.length) := by
  unfold finalizeChunk
  cases hb : st.currentChunk with
  | nil => simp [hb, strip, joinNL, List.filter]
  | cons a as =>
    simp only [List.isEmpty_cons, Bool.false_eq_true, if_false]
    split
    · next hcond => simp [List.filter, hcond]
    · next hcond =>
      simp only [List.filter, Bool.not_eq_true] at hcond ⊢
      rw [hcond]
      simp

/-- Running the chunking loop from any state and finalizing produces the
already-emitted chunk texts followed by the stripped joins of the
remaining segments that pass the length test. -/
theorem foldl_map_text (fn : List Char) (ls : List (List Char)) : ∀ st : ChunkState,
    (finalizeChunk fn (ls.foldl (chunkStep fn) st)).map (fun c => c.text)
      = st.chunks.map (fun c => c.text)
        ++ ((segsAux st.currentChunk ls).map (fun s => strip (joinNL s))).filter
            (fun t => !t.isEmpty && 50 < t.length) := by
  induction ls with
  | nil =>
    intro st
    simp only [List.foldl_nil, segsAux, List.map_cons, List.map_nil]
    exact finalizeChunk_map_text fn st
  | cons l ls ih =>
    intro st
    cases h : headerMatch l with
    | none =>
      simp only [List.foldl_cons, chunkStep, h]
      rw [ih]
      simp [segsAux, h]
    | some p =>
      obtain ⟨level, title⟩ := p
      simp only [List.foldl_cons, chunkStep, h]
      rw [ih]
      simp only [segsAux, h, Option.isSome_some, if_true]
      rw [finalizeChunk_map_text]
      simp only [List.map_cons, List.filter_cons, List.append_assoc]
      simp only [List.filter]
      split <;> simp

/-- The texts of the chunks of a document are exactly the stripped joins
of its segments that are longer than 50 characters, in document order. -/
theorem chunk_markdown_map_text (content fn : List Char) :
    (chunk_markdown content fn).map (fun c => c.text)
      = ((segs (splitLines content)).map (fun s => strip (joinNL s))).filter
          (fun t => !t.isEmpty && 50 < t.length) := by
  unfold chunk_markdown segs
  rw [foldl_map_text]
  simp [initState]

/-- `popStack` is `dropWhile` of the entries whose level is at least the
incoming level: it removes exactly the maximal run of open headers, from
the top of the stack down, whose level is `≥ level`. -/
theorem popStack_eq_dropWhile (level : Nat) (s : List (Nat × List Char)) :
    popStack level s = s.dropWhile (fun p => level ≤ p.1) := by
  induction s with
  | nil => rfl
  | cons p rest ih =>
    by_cases h : level ≤ p.1
    · simp [popStack, List.dropWhile_cons, h, ih]
    · simp [popStack, List.dropWhile_cons, h]

theorem popStack_subset (level : Nat) (s : List (Nat × List Char)) :
    ∀ p ∈ popStack level s, p ∈ s := by
  induction s with
  | nil => intro p hp; simp [popStack] at hp
  | cons q rest ih =>
    intro p hp
    simp only [popStack] at hp
    by_cases h : level ≤ q.1
    · rw [if_pos h] at hp
      exact List.mem_cons_of_mem _ (ih p hp)
    · rw [if_neg h] at hp
      exact hp

theorem popStack_head_lt (level : Nat) (s : List (Nat × List Char))
    (q : Nat × List Char) (rest : List (Nat × List Char))
    (h : popStack level s = q :: rest) : q.1 < level := by
  induction s with
  | nil => simp [popStack] at h
  | cons p ps ih =>
    simp only [popStack] at h
    by_cases hp : level ≤ p.1
    · rw [if_pos hp] at h
      exact ih h
    · rw [if_neg hp] at h
      cases h
      omega

theorem stackLevelsOK_popStack (level : Nat) (s : List (Nat × List Char))
    (hs : stackLevelsOK s) : stackLevelsOK (popStack level s) := by
  induction s with
  | nil => exact hs
  | cons p rest ih =>
    simp only [popStack]
    by_cases h : level ≤ p.1
    · rw [if_pos h]
      exact ih ⟨hs.1.tail, fun q hq => hs.2 q (List.mem_cons_of_mem _ hq)⟩
    · rw [if_neg h]
      exact hs

/-- Pushing a header of level between 1 and 4 after popping the entries
of level `≥ level` keeps the stack well-formed. -/
theorem stackLevelsOK_push (level : Nat) (title : List Char)
    (s : List (Nat × List Char)) (hs : stackLevelsOK s)
    (h1 : 1 ≤ level) (h4 : level ≤ 4) :
    stackLevelsOK ((level, title) :: popStack level s) := by
  constructor
  · cases hp : popStack level s with
    | nil => simp
    | cons q rest =>
      have hchain := (stackLevelsOK_popStack level s hs).1
      rw [hp] at hchain
      exact List.Chain'.cons (popStack_head_lt level s q rest hp) hchain
  · intro p hp
    rcases List.mem_cons.mp hp with h | h
    · subst h; exact ⟨h1, h4⟩
    · exact hs.2 p (popStack_subset level s p h)

theorem headerMatch_level_bounds {line : List Char} {level : Nat} {title : List Char}
    (h : headerMatch line = some (level, title)) : 1 ≤ level ∧ level ≤ 4 := by
  unfold headerMatch at h
  split at h
  · next hcond =>
    split at h
    · exact absurd h (by simp)
    · exact absurd h (by simp)
    · split at h
      · simp only [Option.some.injEq, Prod.mk.injEq] at h
        omega
      · exact absurd h (by simp)
  · exact absurd h (by simp)

/-- A list whose levels are strictly decreasing head-to-tail and at
least 1 is no longer than the level of its head. -/
theorem chain_length_le_head (q : Nat × List Char) (rest : List (Nat × List Char))
    (hc : List.Chain' (fun a b => b.1 < a.1) (q :: rest))
    (h1 : ∀ p ∈ q :: rest, 1 ≤ p.1) :
    (q :: rest).length ≤ q.1 := by
  induction rest generalizing q with
  | nil => simpa using h1 q (by simp)
  | cons r rs ih =>
    have hlt : r.1 < q.1 := (List.chain'_cons.mp hc).1
    have := ih r (List.chain'_cons.mp hc).2 (fun p hp => h1 p (List.mem_cons_of_mem _ hp))
    simp only [List.length_cons] at this ⊢
    omega

theorem stackLevelsOK_length (s : List (Nat × List Char))
    (hs : stackLevelsOK s) : s.length ≤ 4 := by
  cases s with
  | nil => simp
  | cons q rest =>
    have hlen := chain_length_le_head q rest hs.1 (fun p hp => (hs.2 p hp).1)
    have hq4 := (hs.2 q (by simp)).2
    simp only [List.length_cons] at hlen ⊢
    omega

theorem finalizeChunk_headers (fn : List Char) (st : ChunkState)
    (h : ChunkInv fn st) : ∀ c ∈ finalizeChunk fn st, headerPathOK fn c.header := by
  intro c hc
  unfold finalizeChunk at hc
  split at hc
  · exact h.2.2 c hc
  · split at hc
    · rcases List.mem_append.mp hc with hmem | hmem
      · exact h.2.2 c hmem
      · simp only [List.mem_singleton] at hmem
        subst hmem
        exact h.2.1
    · exact h.2.2 c hc

/-- One loop iteration preserves the invariant. -/
theorem chunkStep_inv (fn : List Char) (st : ChunkState) (line : List Char)
    (h : ChunkInv fn st) : ChunkInv fn (chunkStep fn st line) := by
  unfold chunkStep
  cases hm : headerMatch line with
  | none => exact ⟨h.1, h.2.1, h.2.2⟩
  | some p =>
    obtain ⟨level, title⟩ := p
    obtain ⟨h1, h4⟩ := headerMatch_level_bounds hm
    have hstack : stackLevelsOK ((level, title) :: popStack level st.headerStack) :=
      stackLevelsOK_push level title st.headerStack h.1 h1 h4
    refine ⟨hstack, ?_, finalizeChunk_headers fn st h⟩
    right
    refine ⟨(((level, title) :: popStack level st.headerStack).reverse.map Prod.snd), ?_, ?_, rfl⟩
    · simp
    · have := stackLevelsOK_length _ hstack
      simpa using this

theorem foldl_inv (fn : List Char) (ls : List (List Char)) :
    ∀ st : ChunkState, ChunkInv fn st → ChunkInv fn (ls.foldl (chunkStep fn) st) := by
  induction ls with
  | nil => intro st h; exact h
  | cons l ls ih =>
    intro st h
    exact ih _ (chunkStep_inv fn st l h)

theorem initState_inv (fn : List Char) : ChunkInv fn (initState fn) := by
  refine ⟨⟨List.chain'_nil, ?_⟩, Or.inl rfl, ?_⟩
  · intro p hp
    simp [initState] at hp
  · intro c hc
    simp [initState] at hc

/-- With no header line, the loop only accumulates lines into the
buffer and the state keeps the filename header and the empty stack. -/
theorem foldl_no_header (fn : List Char) (ls : List (List Char))
    (h : ∀ l ∈ ls, headerMatch l = none) : ∀ buf : List (List Char),
    ls.foldl (chunkStep fn) ⟨[], buf, fn, []⟩ = ⟨[], buf ++ ls, fn, []⟩ := by
  induction ls with
  | nil => intro buf; simp
  | cons l ls ih =>
    intro buf
    have hl : headerMatch l = none := h l (by simp)
    simp only [List.foldl_cons, chunkStep, hl]
    rw [ih (fun x hx => h x (by simp [hx])) (buf ++ [l])]
    simp

/-- On a document with no header lines, `chunk_markdown` returns one
chunk (the stripped document, with the filename as header) when the
stripped document is longer than 50 characters, and nothing
otherwise. -/
theorem chunk_markdown_no_header (content fn : List Char)
    (h : ∀ l ∈ splitLines content, headerMatch l = none) :
    chunk_markdown content fn
      = if 50 < (strip content).length then [⟨strip content, fn, fn⟩] else [] := by
  unfold chunk_markdown
  rw [show initState fn = ⟨[], [], fn, []⟩ from rfl, foldl_no_header fn _ h []]
  have hne : (splitLines content).isEmpty = false := by
    cases hsp : splitLines content with
    | nil => exact absurd hsp (splitLines_ne_nil content)
    | cons a as => rfl
  unfold finalizeChunk
  simp only [List.nil_append, hne, Bool.false_eq_true, if_false, joinNL_splitLines]
  by_cases h50 : 50 < (strip content).length
  · have hne2 : (strip content).isEmpty = false := by
      cases hsc : strip content with
      | nil => rw [hsc] at h50; simp at h50
      | cons a as => rfl
    simp [h50, hne2]
  · simp [h50]

theorem strip_all_space (s : List Char) (h : ∀ c ∈ s, pyIsSpace c) :
    strip s = [] := by
  unfold strip
  rw [List.dropWhile_eq_nil_iff.mpr h]
  rfl

theorem mem_joinNL_of_mem (c : Char) (l : List Char) :
    ∀ ls : List (List Char), l ∈ ls → c ∈ l → c ∈ joinNL ls := by
  intro ls
  induction ls with
  | nil => intro hl _; cases hl
  | cons a as ih =>
    intro hl hc
    cases as with
    | nil =>
      simp only [List.mem_singleton] at hl
      subst hl
      simpa [joinNL] using hc
    | cons b bs =>
      rw [joinNL_cons_of_ne_nil a (b :: bs) (by simp)]
      rcases List.mem_cons.mp hl with h | h
      · subst h
        exact List.mem_append_left _ hc
      · exact List.mem_append_right _ (List.mem_cons_of_mem _ (ih h hc))

theorem headerMatch_of_all_space (l : List Char) (h : ∀ c ∈ l, pyIsSpace c) :
    headerMatch l = none := by
  have hlev : headerLevel l = 0 := by
    unfold headerLevel
    cases l with
    | nil => rfl
    | cons a as =>
      have ha : pyIsSpace a := h a (by simp)
      have hne : (a == '#') = false := by
        cases hEq : a == '#' with
        | false => rfl
        | true =>
          have : a = '#' := by simpa using hEq
          subst this
          exact absurd ha (by decide)
      simp [List.takeWhile_cons, hne]
  unfold headerMatch
  rw [if_neg (by omega)]

/-- `chunk_markdown` on all-whitespace content (newlines included)
produces nothing. -/
theorem chunk_markdown_all_space (content fn : List Char)
    (h : ∀ c ∈ content, pyIsSpace c) : chunk_markdown content fn = [] := by
  have hlines : ∀ l ∈ splitLines content, headerMatch l = none := by
    intro l hl
    refine headerMatch_of_all_space l ?_
    intro c hc
    refine h c ?_
    rw [← joinNL_splitLines content]
    exact mem_joinNL_of_mem c l (splitLines content) hl hc
  rw [chunk_markdown_no_header content fn hlines, strip_all_space content h]
  simp

theorem drop_length_takeWhile (p : Char → Bool) (l : List Char) :
    l.drop (l.takeWhile p).length = l.dropWhile p := by
  induction l with
  | nil => rfl
  | cons a as ih =>
    by_cases h : p a
    · simp [List.takeWhile_cons, List.dropWhile_cons, h, ih]
    · simp [List.takeWhile_cons, List.dropWhile_cons, h]

/-- The maximal `#` run of a line is a replicate of `#`s of length
`headerLevel line`. -/
theorem takeWhile_hash_eq_replicate (l : List Char) :
    l.takeWhile (fun c => c == '#') = List.replicate (headerLevel l) '#' :=
  List.eq_replicate_length.mpr fun b hb => by simpa using List.mem_takeWhile_imp hb

theorem takeWhile_hash_of_replicate_append (k : Nat) (w : Char) (rest : List Char)
    (hw : (w == '#') = false) :
    ((List.replicate k '#' ++ w :: rest).takeWhile (fun c => c == '#'))
      = List.replicate k '#' := by
  induction k with
  | zero => simp [List.takeWhile_cons, hw]
  | succ n ih => simp [List.replicate_succ, List.takeWhile_cons, ih]

/-- A line that begins with five `#`s has a `#` run of length at least
five. -/
theorem headerLevel_hashes_ge (k : Nat) : ∀ rest : List Char,
    k ≤ headerLevel (List.replicate k '#' ++ rest) := by
  unfold headerLevel
  induction k with
  | zero => intro rest; simp
  | succ n ih =>
    intro rest
    simp only [List.replicate_succ, List.cons_append, List.takeWhile_cons]
    have := ih rest
    simp only [beq_self_eq_true, if_true, List.length_cons]
    omega

theorem headerMatch_none_of_deep (line : List Char) (h : 5 ≤ headerLevel line) :
    headerMatch line = none := by
  unfold headerMatch
  rw [if_neg (by omega)]

theorem headerMatch_isSome_of (k : Nat) (c : Char) (rest line : List Char)
    (hlev : headerLevel line = k) (h1 : 1 ≤ k) (h4 : k ≤ 4)
    (hdrop : line.drop k = c :: rest) (hrest : rest ≠ []) (hc : pyIsSpace c) :
    (headerMatch line).isSome := by
  cases rest with
  | nil => exact absurd rfl hrest
  | cons c2 cs =>
    unfold headerMatch
    rw [hlev, if_pos ⟨h1, h4⟩, hdrop]
    simp [hc]

/-- The header regex matches a line exactly when the line is one to four
`#`s, then a non-empty run of whitespace, then at least one further
character. -/
theorem headerMatch_isSome_iff (line : List Char) :
    (headerMatch line).isSome
      ↔ ∃ k ws title, 1 ≤ k ∧ k ≤ 4 ∧ ws ≠ [] ∧ (∀ c ∈ ws, pyIsSpace c)
          ∧ title ≠ [] ∧ line = List.replicate k '#' ++ ws ++ title := by
  constructor
  · intro h
    unfold headerMatch at h
    split at h
    · next hk =>
      split at h
      · simp at h
      · simp at h
      · next c c2 cs hdrop =>
        split at h
        · next hsp =>
          have hdw : line.dropWhile (fun c => c == '#') = c :: c2 :: cs := by
            rw [← drop_length_takeWhile]
            exact hdrop
          have hline : line = List.replicate (headerLevel line) '#' ++ (c :: c2 :: cs) := by
            rw [← takeWhile_hash_eq_replicate, ← hdw]
            exact (List.takeWhile_append_dropWhile _ _).symm
          exact ⟨headerLevel line, [c], c2 :: cs, hk.1, hk.2, by simp,
            by intro x hx; simp only [List.mem_singleton] at hx; subst hx; exact hsp,
            by simp, by simpa using hline⟩
        · simp at h
    · simp at h
  · rintro ⟨k, ws, title, hk1, hk4, hws_ne, hws, ht_ne, hline⟩
    cases ws with
    | nil => exact absurd rfl hws_ne
    | cons w ws' =>
      cases title with
      | nil => exact absurd rfl ht_ne
      | cons t ts' =>
        have hwsp : pyIsSpace w := hws w (by simp)
        have hwhash : (w == '#') = false := by
          cases hEq : w == '#' with
          | false => rfl
          | true =>
            have : w = '#' := by simpa using hEq
            subst this
            exact absurd hwsp (by decide)
        have hassoc : (List.replicate k '#' ++ (w :: ws')) ++ (t :: ts')
            = List.replicate k '#' ++ (w :: (ws' ++ t :: ts')) := by simp
        have hlev : headerLevel line = k := by
          rw [hline]
          unfold headerLevel
          rw [hassoc, takeWhile_hash_of_replicate_append k w _ hwhash]
          simp
        have hdrop : line.drop k = w :: (ws' ++ t :: ts') := by
          rw [hline, hassoc]
          have := List.drop_left (List.replicate k '#') (w :: (ws' ++ t :: ts'))
          rwa [List.length_replicate] at this
        exact headerMatch_isSome_of k w (ws' ++ t :: ts') line hlev hk1 hk4 hdrop
          (by simp) hwsp

/-- C1: every chunk emitted by `chunk_markdown` has text that is
non-empty after trimming and strictly longer than 50 characters; a
document whose trimmed text is exactly 50 characters yields no chunk,
while one of 51 characters is kept. -/
theorem chunks_longer_than_50 :
    (∀ content fn : List Char, ∀ c ∈ chunk_markdown content fn,
        c.text ≠ [] ∧ 50 < c.text.length)
    ∧ chunk_markdown (List.replicate 50 'a') ("f.md".data) = []
    ∧ chunk_markdown (List.replicate 51 'a') ("f.md".data)
        = [⟨List.replicate 51 'a', "f.md".data, "f.md".data⟩] := by
  refine ⟨?_, by decide, by decide⟩
  intro content fn c hc
  have hmem : c.text ∈ (chunk_markdown content fn).map (fun c => c.text) :=
    List.mem_map_of_mem _ hc
  rw [chunk_markdown_map_text] at hmem
  have hp := (List.mem_filter.mp hmem).2
  simp only [Bool.and_eq_true, Bool.not_eq_true', decide_eq_true_eq] at hp
  refine ⟨fun hnil => ?_, hp.2⟩
  rw [hnil] at hp
  simp at hp

/-- Witness for C1: the single chunk of a 51-character document. -/
theorem chunks_longer_than_50_w :
    (⟨List.replicate 51 'a', "f.md".data, "f.md".data⟩ : Chunk).text ≠ []
    ∧ 50 < (⟨List.replicate 51 'a', "f.md".data, "f.md".data⟩ : Chunk).text.length :=
  chunks_longer_than_50.1 (List.replicate 51 'a') ("f.md".data) _ (by decide)

/-- C2: a header of level L pops every stack entry whose level is ≥ L
before being pushed, and the chunk header path is the titles of the open
headers, outermost to innermost, joined with " > "; a level-3 header
following only an open level-1 header produces the two-component path of
those two titles, with no synthetic intermediate levels. -/
theorem header_stack_discipline :
    (∀ (fn : List Char) (st : ChunkState) (line : List Char) (level : Nat) (title : List Char),
        headerMatch line = some (level, title) →
          (chunkStep fn st line).headerStack
              = (level, title) :: st.headerStack.dropWhile (fun p => level ≤ p.1)
            ∧ (chunkStep fn st line).currentHeader
              = joinSep ((((level, title)
                  :: st.headerStack.dropWhile (fun p => level ≤ p.1)).reverse).map Prod.snd))
    ∧ (chunk_markdown exLevel13 ("f.md".data)).map (fun c => c.header)
        = ["A".data, "A > C".data] := by
  constructor
  · intro fn st line level title h
    simp [chunkStep, h, joinPath, popStack_eq_dropWhile]
  · decide

/-- Witness for C2: pushing a level-2 header onto the empty stack. -/
theorem header_stack_discipline_w :
    (chunkStep ("f".data) (initState ("f".data)) ("## T".data)).headerStack
      = (2, "T".data)
          :: ((initState ("f".data)).headerStack.dropWhile (fun p => 2 ≤ p.1)) :=
  (header_stack_discipline.1 ("f".data) (initState ("f".data)) ("## T".data) 2
    ("T".data) (by decide)).1

/-- C3 counterexample: on a 61-character line followed by a newline no
segment is dropped (the chunk count equals the segment count), yet the
concatenated chunk text differs from the original line sequence, because
trimming removed the trailing empty line. -/
theorem chunk_concat_cex :
    (chunk_markdown exTrailingNewline ("f.md".data)).length
        = (segs (splitLines exTrailingNewline)).length
    ∧ joinNL ((chunk_markdown exTrailingNewline ("f.md".data)).map (fun c => c.text))
        ≠ exTrailingNewline := by decide

/-- C3 (amended): chunks cover the document in order with no overlap:
the line list splits into consecutive segments, one per header boundary,
whose concatenation is exactly the original line sequence, and the chunk
texts are precisely the whitespace-trimmed newline-joins of those
segments that exceed 50 characters, in document order. -/
theorem chunk_coverage (content fn : List Char) :
    (segs (splitLines content)).flatten = splitLines content
    ∧ (chunk_markdown content fn).map (fun c => c.text)
        = ((segs (splitLines content)).map (fun s => strip (joinNL s))).filter
            (fun t => !t.isEmpty && 50 < t.length) :=
  ⟨segs_join _, chunk_markdown_map_text content fn⟩

/-- C4 counterexample: the spec's nesting example document produces no
chunks at all — every buffer is at most 50 characters once trimmed. -/
theorem nesting_example_cex : chunk_markdown exNesting ("f.md".data) = [] := by decide

/-- C4 (amended): on the nesting example with each body padded beyond 50
characters, the first chunk has header path "A > B" and text starting
"## B", and the second chunk has header path "A > C" (B closed when C at
equal depth appears). -/
theorem nesting_example_padded :
    (chunk_markdown exNestingLong ("f.md".data)).map (fun c => c.header)
        = ["A > B".data, "A > C".data]
    ∧ (chunk_markdown exNestingLong ("f.md".data)).map (fun c => c.text.take 4)
        = ["## B".data, "## C".data] := by decide

/-- C5: the displayed relevance equals 1 - distance/2 for a reported
distance, so distance 0 maps to 100%, distance 1 to 50%, distance 2 to
0%, and a missing or falsy distance defaults to 100%. -/
theorem relevance_formula :
    (∀ d : ℚ, relevance d = 1 - d / 2)
    ∧ relevance 0 = 1 ∧ relevance 1 = 1 / 2 ∧ relevance 2 = 0
    ∧ relevance (reportedDistance none) = 1 := by
  refine ⟨fun d => ?_, ?_, ?_, ?_, ?_⟩
  · by_cases h : d = 0
    · subst h; simp [relevance]
    · simp [relevance, h]
  · simp [relevance]
  · norm_num [relevance]
  · norm_num [relevance]
  · simp [relevance, reportedDistance]

/-- C6: a document with no header lines produces at most one chunk —
exactly one when the stripped document text exceeds 50 characters — and
that chunk's header path is the source filename. -/
theorem no_header_single_chunk (content fn : List Char)
    (h : ∀ l ∈ splitLines content, headerMatch l = none) :
    (chunk_markdown content fn).length ≤ 1
    ∧ ((chunk_markdown content fn).length = 1 ↔ 50 < (strip content).length)
    ∧ ∀ c ∈ chunk_markdown content fn, c.header = fn := by
  rw [chunk_markdown_no_header content fn h]
  by_cases h50 : 50 < (strip content).length
  · simp [h50]
  · simp [h50]

/-- Witness for C6 on a 60-character headerless document. -/
theorem no_header_single_chunk_w :
    (chunk_markdown (List.replicate 60 'a') ("f.md".data)).length ≤ 1
    ∧ ((chunk_markdown (List.replicate 60 'a') ("f.md".data)).length = 1
        ↔ 50 < (strip (List.replicate 60 'a')).length)
    ∧ ∀ c ∈ chunk_markdown (List.replicate 60 'a') ("f.md".data),
        c.header = "f.md".data :=
  no_header_single_chunk (List.replicate 60 'a') ("f.md".data) (by decide)

/-- C7: a line is treated as a header iff it begins with 1 to 4 `#`
characters followed by one or more whitespace characters and a non-empty
title; a line beginning with five (or more) `#` characters is never a
header. -/
theorem header_line_characterization :
    (∀ line : List Char,
        (headerMatch line).isSome
          ↔ ∃ k ws title, 1 ≤ k ∧ k ≤ 4 ∧ ws ≠ [] ∧ (∀ c ∈ ws, pyIsSpace c)
              ∧ title ≠ [] ∧ line = List.replicate k '#' ++ ws ++ title)
    ∧ ∀ rest : List Char, headerMatch (List.replicate 5 '#' ++ rest) = none := by
  refine ⟨headerMatch_isSome_iff, fun rest => ?_⟩
  exact headerMatch_none_of_deep _ (headerLevel_hashes_ge 5 rest)

/-- Witness for C7: "## Ok" is a header and a five-`#` line is not. -/
theorem header_line_characterization_w :
    (headerMatch ("## Ok".data)).isSome
    ∧ headerMatch (List.replicate 5 '#' ++ " x".data) = none :=
  ⟨(header_line_characterization.1 ("## Ok".data)).mpr
      ⟨2, [' '], "Ok".data, by decide, by decide, by decide, by decide, by decide,
        by decide⟩,
    header_line_characterization.2 (" x".data)⟩

/-- C8: when chunking all files yields zero chunks, the indexer prints
"No chunks found!" and returns, never calling `collection.add`. -/
theorem no_chunks_message (files : List (List Char × List Char))
    (h : collectChunks files = []) :
    mainIndex files = ⟨["No chunks found!"], none⟩ := by
  unfold mainIndex
  rw [h]
  rfl

/-- Witness for C8: one file holding only a short fragment. -/
theorem no_chunks_message_w :
    mainIndex [("f.md".data, "short".data)] = ⟨["No chunks found!"], none⟩ :=
  no_chunks_message [("f.md".data, "short".data)] (by decide)

/-- C9: `chunk_markdown` on empty content or on content consisting only
of whitespace returns the empty list, even though splitting the empty
string yields the non-empty line list [""] and the final buffer is
therefore non-empty. -/
theorem empty_content_no_chunks :
    splitLines [] = [[]]
    ∧ (∀ fn : List Char, chunk_markdown [] fn = [])
    ∧ ∀ content fn : List Char, (∀ c ∈ content, pyIsSpace c) →
        chunk_markdown content fn = [] := by
  refine ⟨rfl, fun fn => ?_, fun content fn h => chunk_markdown_all_space content fn h⟩
  exact chunk_markdown_all_space [] fn (by intro c hc; cases hc)

/-- Witness for C9 on whitespace-only content. -/
theorem empty_content_no_chunks_w :
    chunk_markdown ("  \n ".data) ("f.md".data) = [] :=
  empty_content_no_chunks.2.2 ("  \n ".data) ("f.md".data) (by decide)

/-- C10: throughout the run the stack's levels are strictly increasing
from bottom to top and lie between 1 and 4, so the stack holds at most 4
entries, and every chunk's header path is either the filename default or
a " > "-join of at most 4 titles. -/
theorem stack_depth_invariant (content fn : List Char) (i : Nat) :
    (List.Chain' (fun a b => b.1 < a.1)
        (((splitLines content).take i).foldl (chunkStep fn) (initState fn)).headerStack
      ∧ (∀ p ∈ (((splitLines content).take i).foldl (chunkStep fn)
            (initState fn)).headerStack, 1 ≤ p.1 ∧ p.1 ≤ 4)
      ∧ (((splitLines content).take i).foldl (chunkStep fn)
            (initState fn)).headerStack.length ≤ 4)
    ∧ ∀ c ∈ chunk_markdown content fn,
        c.header = fn
          ∨ ∃ ts : List (List Char), ts ≠ [] ∧ ts.length ≤ 4 ∧ c.header = joinSep ts := by
  have hinv : ∀ ls : List (List Char), ChunkInv fn (ls.foldl (chunkStep fn) (initState fn)) :=
    fun ls => foldl_inv fn ls (initState fn) (initState_inv fn)
  refine ⟨?_, ?_⟩
  · have h := hinv ((splitLines content).take i)
    exact ⟨h.1.1, h.1.2, stackLevelsOK_length _ h.1⟩
  · intro c hc
    unfold chunk_markdown at hc
    exact finalizeChunk_headers fn _ (hinv (splitLines content)) c hc

/-- Witness for C10: the single chunk of the four-level document has a
header path of at most four joined titles. -/
theorem stack_depth_invariant_w :
    ((chunk_markdown exDeep ("f.md".data)).headD ⟨[], [], []⟩).header = "f.md".data
    ∨ ∃ ts : List (List Char), ts ≠ [] ∧ ts.length ≤ 4
        ∧ ((chunk_markdown exDeep ("f.md".data)).headD ⟨[], [], []⟩).header = joinSep ts :=
  (stack_depth_invariant exDeep ("f.md".data) 0).2 _ (by decide)

end ShadowMemory
